import Mathlib

/-!
Verification of the sparse-merkle-tree repository (package merkle, tree.go).

The Go code is shallowly embedded: bytes are Nat (values < 256 in the real
program), byte slices are List Nat, uint64 arithmetic is Nat with an explicit
mod 2^64 wherever Go wraparound matters (the indexMax computation in NewTree
and the size check in VerifyMembershipProof), and the stateful hash.Hash
engine is a total function on byte strings together with its digest size
(the reset/write/sum protocol of tree.hash and tree.pairHash amounts to
hashing the concatenation of the written strings; write failures are not
modelled, matching the claims that assume writes never fail).

Go map iteration order is explicit: buildStep below is the literal
translation of one pass of Tree.build over an enumeration of a level map,
and it is proved to agree with the order-free parentLevel for every
enumeration of the map keys, which justifies defining the levels of the
constructed tree by parentLevel.
-/

namespace Merkle

/-- A digest or byte string: a list of byte values. -/
abbrev Bytes := List Nat

/-- The injected hash.Hash collaborator: a digest function and its fixed
output size (hasher.Size() in Go). -/
structure HashEngine where
  hash : Bytes → Bytes
  size : Nat

/-- Errors of tree.go (ErrTooLargeTreeDepth, ErrTooLargeLeafIndex,
ErrTooLargeProofSize, ErrInvalidProofSize). -/
inductive MErr where
  | tooLargeTreeDepth
  | tooLargeLeafIndex
  | tooLargeProofSize
  | invalidProofSize
deriving DecidableEq

/-- Outcome of VerifyMembershipProof: a returned error, a Go run-time panic
(out-of-bounds slice access), or a normal boolean result. -/
inductive VResult where
  | err (e : MErr)
  | panic
  | ok (b : Bool)
deriving DecidableEq

/-- Modelled from the spec: the helper maxIndex used by NewTree is not under
src/ (it lives in the repository's util file); the spec says NewTree must
"validate every leaf index", so maxIndex is the maximum supplied leaf index,
0 when no leaves are supplied. -/
def maxIndex (entries : List (Nat × Bytes)) : Nat :=
  entries.foldl (fun m p => max m p.1) 0

/-- The indexMax computation of NewTree, modelled exactly:
new(big.Int).Lsh(big.NewInt(2), uint(depth-1)).Uint64() - 1.
The shift amount depth-1 is uint64 subtraction (wraps at depth = 0), the
big.Int shift is exact, Uint64() truncates to the low 64 bits, and the
final -1 is uint64 subtraction again. -/
def goIndexMax (depth : Nat) : Nat :=
  ((2 * 2 ^ ((depth + (2 ^ 64 - 1)) % 2 ^ 64)) % 2 ^ 64 + (2 ^ 64 - 1)) % 2 ^ 64

/-- defaultNodeAux E k is the default node k levels above the leaves:
defaultNodeAux E 0 = H(hashSize zero bytes) is the leaf-level default, and
each level above hashes the concatenation of the previous with itself
(tree.buildDefaultNodes, re-indexed from the bottom). -/
def defaultNodeAux (E : HashEngine) : Nat → Bytes
  | 0 => E.hash (List.replicate E.size 0)
  | k + 1 => E.hash (defaultNodeAux E k ++ defaultNodeAux E k)

/-- The defaultNodes table of a depth-D tree: a list of D+1 digests,
entry d being the default node at level d (so entry D is the leaf default),
exactly as tree.buildDefaultNodes fills tree.defaultNodes. -/
def buildDefaultNodes (E : HashEngine) (depth : Nat) : List Bytes :=
  (List.range (depth + 1)).map (fun d => defaultNodeAux E (depth - d))

/-- The first loop of Tree.build: store the hash of every supplied leaf at
the bottom level (levels[depth][index] = hash(leaf)), folding over the map
entries in the given order. -/
def storeLeaves (E : HashEngine) (entries : List (Nat × Bytes)) :
    Nat → Option Bytes :=
  entries.foldl (fun acc p => Function.update acc p.1 (some (E.hash p.2)))
    (fun _ => none)

/-- The body of one iteration of the second loop of Tree.build, translated
literally: an even index hashes itself with its stored-or-default right
sibling into the parent slot, an odd index is skipped when its even sibling
is stored and otherwise hashes the default left sibling with itself. dflt
is defaultNodes[d], acc the partially filled map levels[d-1]. -/
def buildStepF (E : HashEngine) (dflt : Bytes) (lv : Nat → Option Bytes)
    (acc : Nat → Option Bytes) (i : Nat) : Nat → Option Bytes :=
  match lv i with
  | none => acc
  | some node =>
    if i % 2 == 0 then
      Function.update acc (i / 2)
        (some (E.hash (node ++ (lv (i + 1)).getD dflt)))
    else
      match lv (i - 1) with
      | some _ => acc
      | none => Function.update acc (i / 2) (some (E.hash (dflt ++ node)))

/-- One pass of the second loop of Tree.build: iterate buildStepF over the
keys of level d in the order given by order, filling an initially empty
parent map. -/
def buildStep (E : HashEngine) (dflt : Bytes) (lv : Nat → Option Bytes)
    (order : List Nat) : Nat → Option Bytes :=
  order.foldl (buildStepF E dflt lv) (fun _ => none)

/-- The unique loop iteration that writes the parent slot p: the even child
when it is stored, else the odd child when it is stored, else nobody. -/
def pairWriter (lv : Nat → Option Bytes) (p : Nat) : Option Nat :=
  if (lv (2 * p)).isSome then some (2 * p)
  else if (lv (2 * p + 1)).isSome then some (2 * p + 1)
  else none

/-- Whether the writer of parent slot p occurs in the iteration order. -/
def pairWriterIn (lv : Nat → Option Bytes) (p : Nat) (o : List Nat) : Bool :=
  match pairWriter lv p with
  | some w => o.contains w
  | none => false

/-- The order-free description of one build pass: a parent is stored exactly
when one of its children is, and its digest hashes the stored-or-default
left child with the stored-or-default right child. buildStep is proved to
agree with this for every enumeration of the level's keys. -/
def parentLevel (E : HashEngine) (dflt : Bytes) (lv : Nat → Option Bytes) :
    Nat → Option Bytes := fun p =>
  if (lv (2 * p)).isSome || (lv (2 * p + 1)).isSome then
    some (E.hash ((lv (2 * p)).getD dflt ++ (lv (2 * p + 1)).getD dflt))
  else none

/-- n applications of parentLevel starting at the default-node index j: the
order-free form of the bottom-up build. -/
def funUp (E : HashEngine) : Nat → (Nat → Option Bytes) → Nat → (Nat → Option Bytes)
  | _, lv, 0 => lv
  | j, lv, n + 1 => funUp E (j + 1) (parentLevel E (defaultNodeAux E j) lv) n

/-- The level k steps above the leaf level produced by Tree.build, described
order-free: levelAux E lf 0 is the stored leaf level and each step applies
parentLevel with the default node of the level below. -/
def levelAux (E : HashEngine) (lf : Nat → Option Bytes) : Nat → Nat → Option Bytes
  | 0 => lf
  | k + 1 => parentLevel E (defaultNodeAux E k) (levelAux E lf k)

/-- The operational build: starting from the stored leaf level (k = 0 levels
above the leaves), apply one buildStep per enumeration in orders, each pass
using the default node of its child level, exactly as the d = depth downto 1
loop of Tree.build. -/
def opUp (E : HashEngine) : Nat → (Nat → Option Bytes) → List (List Nat) →
    (Nat → Option Bytes)
  | _, lv, [] => lv
  | j, lv, o :: os => opUp E (j + 1) (buildStep E (defaultNodeAux E j) lv o) os

/-- A list of per-pass iteration orders is valid when each order enumerates
exactly the keys of the level map it iterates over, as Go map range does. -/
def ValidUp (E : HashEngine) : Nat → (Nat → Option Bytes) → List (List Nat) → Prop
  | _, _, [] => True
  | j, lv, o :: os =>
    (∀ i, (lv i).isSome ↔ i ∈ o) ∧
      ValidUp E (j + 1) (buildStep E (defaultNodeAux E j) lv o) os

/-- The root of an operational build of given depth: entry 0 of the top
level, defaulting to the root default node, as Tree.Root reads it. -/
def opRoot (E : HashEngine) (depth : Nat) (entries : List (Nat × Bytes))
    (orders : List (List Nat)) : Bytes :=
  (opUp E 0 (storeLeaves E entries) orders 0).getD (defaultNodeAux E depth)

/-- The Tree record of tree.go; levels d i is the stored digest at index i
of level d (None when the slot is absent from the level map). -/
structure Tree where
  hash : Bytes → Bytes
  hashSize : Nat
  depth : Nat
  indexMax : Nat
  defaultNodes : List Bytes
  levels : Nat → Nat → Option Bytes

/-- The tree assembled by a successful NewTree: levels d is the level
depth - d steps above the leaves. -/
def mkTree (E : HashEngine) (depth : Nat) (entries : List (Nat × Bytes)) : Tree :=
  { hash := E.hash
    hashSize := E.size
    depth := depth
    indexMax := goIndexMax depth
    defaultNodes := buildDefaultNodes E depth
    levels := fun d i => levelAux E (storeLeaves E entries) (depth - d) i }

/-- NewTree: reject depth > DepthMax = 64, reject maxIndex(leaves) >
indexMax, otherwise build the tree. -/
def NewTree (E : HashEngine) (depth : Nat) (entries : List (Nat × Bytes)) :
    Except MErr Tree :=
  if depth > 64 then Except.error MErr.tooLargeTreeDepth
  else if maxIndex entries > goIndexMax depth then
    Except.error MErr.tooLargeLeafIndex
  else Except.ok (mkTree E depth entries)

/-- Tree.Root: levels[0][0] when stored, defaultNodes[0] otherwise. -/
def Root (t : Tree) : Bytes :=
  match t.levels 0 0 with
  | some root => root
  | none => t.defaultNodes.getD 0 []

/-- The sibling index computed in CreateMembershipProof: index+1 for an even
index, index-1 for an odd one. -/
def goSibling (i : Nat) : Nat := if i % 2 == 0 then i + 1 else i - 1

/-- The proof-building walk of CreateMembershipProof from level d down to
level 1: at each level, a stored sibling contributes its digest to the front
of the body and a set bit to the head. Go accumulates the head as
proofHead += 1 <<< (depth - d) over d = depth downto 1; since each level
contributes a distinct bit, that sum equals this recursion, in which the bit
of the current (deepest remaining) level is the lowest and the bits of the
shallower levels are shifted one position up. -/
def createAux (lv : Nat → Nat → Option Bytes) : Nat → Nat → Nat × Bytes
  | 0, _ => (0, [])
  | d + 1, index =>
    match lv (d + 1) (goSibling index) with
    | some s =>
      (2 * (createAux lv d (index / 2)).1 + 1, s ++ (createAux lv d (index / 2)).2)
    | none =>
      (2 * (createAux lv d (index / 2)).1, (createAux lv d (index / 2)).2)

/-- Big-endian encoding of a value into n bytes, as binary.BigEndian
PutUint64 writes the proof head (n = 8). -/
def beBytes : Nat → Nat → Bytes
  | 0, _ => []
  | n + 1, v => (v / 2 ^ (8 * n)) % 256 :: beBytes n v

/-- Big-endian decoding of a byte string, as binary.BigEndian.Uint64 reads
the 8-byte proof head. -/
def beUint (l : Bytes) : Nat := l.foldl (fun acc b => acc * 256 + b) 0

/-- CreateMembershipProof: reject index > indexMax, otherwise emit the
8-byte big-endian head followed by the sibling digests in leaf-to-root
order. -/
def CreateMembershipProof (t : Tree) (index : Nat) : Except MErr Bytes :=
  if index > t.indexMax then Except.error MErr.tooLargeLeafIndex
  else
    Except.ok (beBytes 8 (createAux t.levels t.depth index).1
      ++ (createAux t.levels t.depth index).2)

/-- The verification walk of VerifyMembershipProof from level d down to
level 1: bit 0 of the remaining head selects between the default sibling of
the current level and the next hashSize proof bytes; the running digest is
combined on the side given by the parity of the running index. A slice read
past the end of the proof is the Go panic, modelled as none. -/
def verifyAux (t : Tree) : Nat → Bytes → Nat → Nat → Nat → Bytes → Option Bytes
  | 0, b, _, _, _, _ => some b
  | d + 1, b, index, head, pi, proof =>
    if head % 2 == 0 then
      verifyAux t d
        (if index % 2 == 0 then t.hash (b ++ t.defaultNodes.getD (d + 1) [])
         else t.hash (t.defaultNodes.getD (d + 1) [] ++ b))
        (index / 2) (head / 2) pi proof
    else
      if pi + t.hashSize ≤ proof.length then
        verifyAux t d
          (if index % 2 == 0 then t.hash (b ++ (proof.drop pi).take t.hashSize)
           else t.hash ((proof.drop pi).take t.hashSize ++ b))
          (index / 2) (head / 2) (pi + t.hashSize) proof
      else none

/-- VerifyMembershipProof: the index bound, the maximum-size bound
(computed in uint64), and the body-length multiple check (uint64
subtraction, which wraps for proofs shorter than the 8-byte head); then the
head is decoded (reading proof[:8] panics when the proof is shorter than 8
bytes), the walk replays the path from the tree's own stored-or-default
leaf digest, and the reproduced digest is compared with Root(). -/
def VerifyMembershipProof (t : Tree) (index : Nat) (proof : Bytes) : VResult :=
  if index > t.indexMax then VResult.err MErr.tooLargeLeafIndex
  else if proof.length > (t.hashSize * t.depth + 8) % 2 ^ 64 then
    VResult.err MErr.tooLargeProofSize
  else if (proof.length + (2 ^ 64 - 8)) % 2 ^ 64 % t.hashSize ≠ 0 then
    VResult.err MErr.invalidProofSize
  else if proof.length < 8 then VResult.panic
  else
    match verifyAux t t.depth
        ((t.levels t.depth index).getD (t.defaultNodes.getD t.depth []))
        index (beUint (proof.take 8)) 8 proof with
    | some b => VResult.ok (b == Root t)
    | none => VResult.panic

/-- The uniform node lookup of the spec: the stored digest at (level, index)
when present, the default node of that level otherwise. This is the value
Root reads at (0, 0) and VerifyMembershipProof reads at (depth, index). -/
def nodeVal (t : Tree) (d i : Nat) : Bytes :=
  (t.levels d i).getD (t.defaultNodes.getD d [])

/-- Number of set bits, with structural fuel so that it evaluates: the fuel
n always suffices for the argument n. -/
def popCountAux : Nat → Nat → Nat
  | 0, _ => 0
  | fuel + 1, n => if n = 0 then 0 else n % 2 + popCountAux fuel (n / 2)

/-- Number of set bits of a natural number. -/
def popCount (n : Nat) : Nat := popCountAux n n

/-- A concrete executable 32-byte hash engine used for the concrete
instances below. -/
def testE32 : HashEngine :=
  { hash := fun l => List.replicate 32 ((l.foldl (fun a b => a + b) 0 + l.length) % 256)
    size := 32 }

/-- The two-leaf fixture of the repository's tests (indices 0 and 3). -/
def testEntries : List (Nat × Bytes) :=
  [(0, [0, 0, 0, 0, 0, 0, 0, 0]), (3, [3, 3, 3, 3, 3, 3, 3, 3])]

/-! Arithmetic and codec helper lemmas. -/

theorem beBytes_length (n v : Nat) : (beBytes n v).length = n := by
  induction n generalizing v with
  | zero => rfl
  | succ n ih => simp [beBytes, ih]

theorem beUint_foldl_acc (l : Bytes) : ∀ acc : Nat,
    l.foldl (fun a b => a * 256 + b) acc =
      acc * 256 ^ l.length + l.foldl (fun a b => a * 256 + b) 0 := by
  induction l with
  | nil => intro acc; simp
  | cons c l ih =>
    intro acc
    simp only [List.foldl_cons, List.length_cons, Nat.zero_mul, Nat.zero_add]
    rw [ih (acc * 256 + c), ih c]
    ring

theorem beUint_beBytes (n v : Nat) : beUint (beBytes n v) = v % 2 ^ (8 * n) := by
  induction n generalizing v with
  | zero => simp [beBytes, beUint, Nat.mod_one]
  | succ n ih =>
    show beUint (_ :: beBytes n v) = _
    unfold beUint
    simp only [List.foldl_cons, Nat.zero_mul, Nat.zero_add]
    rw [beUint_foldl_acc, beBytes_length]
    have hb : (beBytes n v).foldl (fun a b => a * 256 + b) 0 = v % 2 ^ (8 * n) := ih v
    rw [hb]
    have hpow : (256 : Nat) ^ n = 2 ^ (8 * n) := by
      rw [show (256 : Nat) = 2 ^ 8 by norm_num, ← pow_mul]
    have hsplit : v % (2 ^ (8 * n) * 2 ^ 8) =
        v % 2 ^ (8 * n) + 2 ^ (8 * n) * (v / 2 ^ (8 * n) % 2 ^ 8) := Nat.mod_mul
    have hexp : 2 ^ (8 * n) * 2 ^ 8 = 2 ^ (8 * (n + 1)) := by
      rw [← pow_add]; ring_nf
    rw [hexp] at hsplit
    rw [hsplit, hpow]
    have : (256 : Nat) = 2 ^ 8 := by norm_num
    rw [this]
    ring

theorem popCountAux_zero : ∀ fuel : Nat, popCountAux fuel 0 = 0 := by
  intro fuel
  cases fuel with
  | zero => rfl
  | succ f => simp [popCountAux]

theorem popCountAux_fuel : ∀ (f1 : Nat) (f2 n : Nat), n ≤ f1 → n ≤ f2 →
    popCountAux f1 n = popCountAux f2 n := by
  intro f1
  induction f1 with
  | zero =>
    intro f2 n h1 _
    have hn : n = 0 := by omega
    subst hn
    rw [popCountAux_zero, popCountAux_zero]
  | succ f1 ih =>
    intro f2 n h1 h2
    by_cases hn : n = 0
    · subst hn
      rw [popCountAux_zero, popCountAux_zero]
    · cases f2 with
      | zero => omega
      | succ f2 =>
        show (if n = 0 then 0 else n % 2 + popCountAux f1 (n / 2))
          = (if n = 0 then 0 else n % 2 + popCountAux f2 (n / 2))
        rw [if_neg hn, if_neg hn, ih f2 (n / 2) (by omega) (by omega)]

theorem popCount_succ_eq (n : Nat) :
    popCount (n + 1) = (n + 1) % 2 + popCount ((n + 1) / 2) := by
  show popCountAux (n + 1) (n + 1) = (n + 1) % 2 + popCountAux ((n + 1) / 2) ((n + 1) / 2)
  rw [show popCountAux (n + 1) (n + 1)
      = (n + 1) % 2 + popCountAux n ((n + 1) / 2) from by simp [popCountAux],
    popCountAux_fuel n ((n + 1) / 2) ((n + 1) / 2) (by omega) (by omega)]

theorem popCount_two_mul (h : Nat) : popCount (2 * h) = popCount h := by
  cases h with
  | zero => rfl
  | succ m =>
    have he : 2 * (m + 1) = (2 * m + 1) + 1 := by omega
    rw [he, popCount_succ_eq]
    have h1 : (2 * m + 1 + 1) % 2 = 0 := by omega
    have h2 : (2 * m + 1 + 1) / 2 = m + 1 := by omega
    rw [h1, h2]
    exact Nat.zero_add _

theorem popCount_two_mul_add_one (h : Nat) :
    popCount (2 * h + 1) = popCount h + 1 := by
  rw [popCount_succ_eq]
  have h1 : (2 * h + 1) % 2 = 1 := by omega
  have h2 : (2 * h + 1) / 2 = h := by omega
  rw [h1, h2]
  exact Nat.add_comm 1 _

theorem mod_two_pow_succ (h k : Nat) :
    h % 2 ^ (k + 1) = h % 2 + 2 * (h / 2 % 2 ^ k) := by
  have : (2 : Nat) ^ (k + 1) = 2 * 2 ^ k := by rw [pow_succ]; ring
  rw [this]
  exact Nat.mod_mul

theorem goIndexMax_eq (d : Nat) : goIndexMax d =
    ((2 * 2 ^ ((d + (2 ^ 64 - 1)) % 2 ^ 64)) % 2 ^ 64 + (2 ^ 64 - 1)) % 2 ^ 64 := rfl

theorem two_mul_pow_pred : 2 * 2 ^ (2 ^ 64 - 1) = 2 ^ 64 * 2 ^ (2 ^ 64 - 64) := by
  have hsub1 : (2 ^ 64 - 1) + 1 = 2 ^ 64 := by omega
  have hsub2 : 64 + (2 ^ 64 - 64) = 2 ^ 64 := by omega
  calc 2 * 2 ^ (2 ^ 64 - 1) = 2 ^ ((2 ^ 64 - 1) + 1) := (pow_succ' 2 _).symm
  _ = 2 ^ (2 ^ 64 : Nat) := by rw [hsub1]
  _ = 2 ^ (64 + (2 ^ 64 - 64)) := by rw [hsub2]
  _ = 2 ^ 64 * 2 ^ (2 ^ 64 - 64) := pow_add 2 64 _

/-- At depth 0 the shift amount depth-1 wraps around and the computed
indexMax is 2^64 - 1: every uint64 index is accepted. -/
theorem goIndexMax_zero : goIndexMax 0 = 2 ^ 64 - 1 := by
  rw [goIndexMax_eq 0]
  have hsh : ((0 : Nat) + (2 ^ 64 - 1)) % 2 ^ 64 = 2 ^ 64 - 1 := by norm_num
  rw [hsh, two_mul_pow_pred, Nat.mul_mod_right, Nat.zero_add]
  norm_num

theorem goIndexMax_of_pos (d : Nat) (h1 : 1 ≤ d) (h2 : d ≤ 64) :
    goIndexMax d = 2 ^ d - 1 := by
  rw [goIndexMax_eq d]
  have hs : (d + (2 ^ 64 - 1)) % 2 ^ 64 = d - 1 := by omega
  have h2d : 2 * 2 ^ (d - 1) = 2 ^ d := by
    have hd : d - 1 + 1 = d := by omega
    calc 2 * 2 ^ (d - 1) = 2 ^ (d - 1 + 1) := (pow_succ' 2 _).symm
    _ = 2 ^ d := by rw [hd]
  rw [hs, h2d]
  have hp : 1 ≤ (2 : Nat) ^ d := Nat.one_le_two_pow
  have hle : (2 : Nat) ^ d ≤ 2 ^ 64 := Nat.pow_le_pow_right (by norm_num) h2
  generalize (2 : Nat) ^ d = p at hp hle ⊢
  omega

/-- The valid index bound never rejects an index below 2^depth: for every
depth at most 64, 2^depth - 1 is at most the computed indexMax. -/
theorem goIndexMax_ge (d : Nat) (h : d ≤ 64) : 2 ^ d - 1 ≤ goIndexMax d := by
  cases Nat.eq_zero_or_pos d with
  | inl h0 =>
    subst h0
    rw [goIndexMax_zero]
    norm_num
  | inr hpos => rw [goIndexMax_of_pos d hpos h]

/-! Lemmas about the stored levels of a constructed tree. -/

theorem storeLeaves_from_isSome (E : HashEngine) (l : List (Nat × Bytes)) :
    ∀ (acc : Nat → Option Bytes) (i : Nat),
      (List.foldl (fun (acc : Nat → Option Bytes) p =>
          Function.update acc p.1 (some (E.hash p.2))) acc l i).isSome
        ↔ (acc i).isSome ∨ i ∈ l.map Prod.fst := by
  induction l with
  | nil => intro acc i; simp
  | cons p l ih =>
    intro acc i
    simp only [List.foldl_cons, List.map_cons, List.mem_cons]
    rw [ih]
    by_cases hip : i = p.1
    · simp [Function.update_apply, hip]
    · simp [Function.update_apply, hip]

theorem storeLeaves_isSome (E : HashEngine) (l : List (Nat × Bytes)) (i : Nat) :
    (storeLeaves E l i).isSome ↔ i ∈ l.map Prod.fst := by
  unfold storeLeaves
  rw [storeLeaves_from_isSome]
  simp

theorem storeLeaves_from_shape (E : HashEngine) (l : List (Nat × Bytes)) :
    ∀ (acc : Nat → Option Bytes) (i : Nat) (v : Bytes),
      (∀ j w, acc j = some w → ∃ b, w = E.hash b) →
      List.foldl (fun (acc : Nat → Option Bytes) p =>
          Function.update acc p.1 (some (E.hash p.2))) acc l i = some v →
      ∃ b, v = E.hash b := by
  induction l with
  | nil => intro acc i v hacc h; exact hacc i v h
  | cons p l ih =>
    intro acc i v hacc h
    simp only [List.foldl_cons] at h
    refine ih _ i v ?_ h
    intro j w hj
    rcases Function.update_apply acc p.1 (some (E.hash p.2)) j ▸ hj with hj2
    by_cases hjp : j = p.1
    · rw [if_pos hjp] at hj2
      exact ⟨p.2, by injection hj2 with h2; exact h2.symm⟩
    · rw [if_neg hjp] at hj2
      exact hacc j w hj2

theorem storeLeaves_shape (E : HashEngine) (l : List (Nat × Bytes)) (i : Nat)
    (v : Bytes) (h : storeLeaves E l i = some v) : ∃ b, v = E.hash b := by
  refine storeLeaves_from_shape E l _ i v ?_ h
  intro j w hj
  exact absurd hj (by simp)

theorem parentLevel_isSome (E : HashEngine) (dflt : Bytes) (lv : Nat → Option Bytes)
    (p : Nat) : (parentLevel E dflt lv p).isSome
      ↔ ((lv (2 * p)).isSome ∨ (lv (2 * p + 1)).isSome) := by
  unfold parentLevel
  by_cases hc : ((lv (2 * p)).isSome || (lv (2 * p + 1)).isSome) = true
  · rw [if_pos hc]
    simp only [Bool.or_eq_true] at hc
    simpa using hc
  · rw [if_neg hc]
    simp only [Bool.or_eq_true] at hc
    simpa using hc

theorem levelAux_shape (E : HashEngine) (lf : Nat → Option Bytes)
    (hlf : ∀ j w, lf j = some w → ∃ b, w = E.hash b) :
    ∀ (k i : Nat) (v : Bytes), levelAux E lf k i = some v → ∃ b, v = E.hash b := by
  intro k
  induction k with
  | zero => exact hlf
  | succ k ih =>
    intro i v h
    unfold levelAux parentLevel at h
    by_cases hc : ((levelAux E lf k (2 * i)).isSome
        || (levelAux E lf k (2 * i + 1)).isSome) = true
    · rw [if_pos hc] at h
      exact ⟨_, by injection h with h2; exact h2.symm⟩
    · rw [if_neg hc] at h
      exact absurd h (by simp)

theorem levelAux_isSome (E : HashEngine) (lf : Nat → Option Bytes) :
    ∀ (k i : Nat), (levelAux E lf k i).isSome ↔ ∃ j, (lf j).isSome ∧ j / 2 ^ k = i := by
  intro k
  induction k with
  | zero =>
    intro i
    show (lf i).isSome ↔ _
    constructor
    · intro h; exact ⟨i, h, by simp⟩
    · rintro ⟨j, hj, he⟩
      simp only [pow_zero, Nat.div_one] at he
      exact he ▸ hj
  | succ k ih =>
    intro i
    show (parentLevel E (defaultNodeAux E k) (levelAux E lf k) i).isSome ↔ _
    rw [parentLevel_isSome, ih (2 * i), ih (2 * i + 1)]
    have hdiv : ∀ j : Nat, j / 2 ^ (k + 1) = j / 2 ^ k / 2 := by
      intro j
      rw [Nat.div_div_eq_div_mul, pow_succ]
    constructor
    · rintro (⟨j, hj, he⟩ | ⟨j, hj, he⟩) <;>
        exact ⟨j, hj, by rw [hdiv j, he]; omega⟩
    · rintro ⟨j, hj, he⟩
      rw [hdiv j] at he
      rcases Nat.lt_or_ge (j / 2 ^ k) (2 * i + 1) with hm | hm
      · exact Or.inl ⟨j, hj, by omega⟩
      · exact Or.inr ⟨j, hj, by omega⟩

theorem levelAux_parent_getD (E : HashEngine) (lf : Nat → Option Bytes)
    (k p : Nat) :
    (levelAux E lf (k + 1) p).getD (defaultNodeAux E (k + 1))
      = E.hash ((levelAux E lf k (2 * p)).getD (defaultNodeAux E k)
          ++ (levelAux E lf k (2 * p + 1)).getD (defaultNodeAux E k)) := by
  show (parentLevel E (defaultNodeAux E k) (levelAux E lf k) p).getD _ = _
  unfold parentLevel
  by_cases hc : ((levelAux E lf k (2 * p)).isSome
      || (levelAux E lf k (2 * p + 1)).isSome) = true
  · rw [if_pos hc]
    rfl
  · rw [if_neg hc]
    simp only [Bool.or_eq_true, not_or, Bool.not_eq_true] at hc
    rcases hc with ⟨h1, h2⟩
    have e1 : levelAux E lf k (2 * p) = none :=
      Option.not_isSome_iff_eq_none.mp (by simp [h1])
    have e2 : levelAux E lf k (2 * p + 1) = none :=
      Option.not_isSome_iff_eq_none.mp (by simp [h2])
    rw [e1, e2]
    simp [Option.getD_none, defaultNodeAux]

theorem levelAux_empty (E : HashEngine) :
    ∀ (k i : Nat), levelAux E (fun _ => none) k i = none := by
  intro k
  induction k with
  | zero => intro i; rfl
  | succ k ih =>
    intro i
    show parentLevel E (defaultNodeAux E k) (levelAux E (fun _ => none) k) i = none
    simp [parentLevel, ih]

theorem storeLeaves_nil (E : HashEngine) : storeLeaves E [] = fun _ => none := rfl

/-! Lemmas about NewTree and the fields of the constructed tree. -/

theorem NewTree_ok_elim {E : HashEngine} {d : Nat} {l : List (Nat × Bytes)}
    {t : Tree} (h : NewTree E d l = Except.ok t) :
    d ≤ 64 ∧ maxIndex l ≤ goIndexMax d ∧ t = mkTree E d l := by
  unfold NewTree at h
  by_cases h1 : d > 64
  · rw [if_pos h1] at h
    exact Except.noConfusion h
  · rw [if_neg h1] at h
    by_cases h2 : maxIndex l > goIndexMax d
    · rw [if_pos h2] at h
      exact Except.noConfusion h
    · rw [if_neg h2] at h
      injection h with h3
      exact ⟨Nat.le_of_not_lt h1, Nat.le_of_not_lt h2, h3.symm⟩

theorem NewTree_ok_of (E : HashEngine) (d : Nat) (l : List (Nat × Bytes))
    (h1 : ¬ d > 64) (h2 : ¬ maxIndex l > goIndexMax d) :
    NewTree E d l = Except.ok (mkTree E d l) := by
  unfold NewTree
  rw [if_neg h1, if_neg h2]

theorem buildDefaultNodes_length (E : HashEngine) (depth : Nat) :
    (buildDefaultNodes E depth).length = depth + 1 := by
  simp [buildDefaultNodes]

theorem buildDefaultNodes_getD (E : HashEngine) (depth d : Nat) (h : d ≤ depth) :
    (buildDefaultNodes E depth).getD d [] = defaultNodeAux E (depth - d) := by
  unfold buildDefaultNodes
  rw [List.getD_eq_getElem?_getD, List.getElem?_map, List.getElem?_range (by omega)]
  rfl

theorem mkTree_hash (E : HashEngine) (depth : Nat) (entries : List (Nat × Bytes)) :
    (mkTree E depth entries).hash = E.hash := rfl

theorem mkTree_hashSize (E : HashEngine) (depth : Nat) (entries : List (Nat × Bytes)) :
    (mkTree E depth entries).hashSize = E.size := rfl

theorem mkTree_depth (E : HashEngine) (depth : Nat) (entries : List (Nat × Bytes)) :
    (mkTree E depth entries).depth = depth := rfl

theorem mkTree_indexMax (E : HashEngine) (depth : Nat) (entries : List (Nat × Bytes)) :
    (mkTree E depth entries).indexMax = goIndexMax depth := rfl

theorem mkTree_defaultNodes (E : HashEngine) (depth : Nat) (entries : List (Nat × Bytes)) :
    (mkTree E depth entries).defaultNodes = buildDefaultNodes E depth := rfl

theorem mkTree_levels (E : HashEngine) (depth : Nat) (entries : List (Nat × Bytes)) :
    (mkTree E depth entries).levels
      = fun d i => levelAux E (storeLeaves E entries) (depth - d) i := rfl

theorem mkTree_defaultNodes_getD (E : HashEngine) (depth : Nat)
    (entries : List (Nat × Bytes)) (d : Nat) (h : d ≤ depth) :
    (mkTree E depth entries).defaultNodes.getD d [] = defaultNodeAux E (depth - d) :=
  buildDefaultNodes_getD E depth d h

theorem mkTree_levels_some_length (E : HashEngine) (depth : Nat)
    (entries : List (Nat × Bytes)) (hE : ∀ b, (E.hash b).length = E.size)
    (d i : Nat) (s : Bytes) (h : (mkTree E depth entries).levels d i = some s) :
    s.length = E.size := by
  rcases levelAux_shape E (storeLeaves E entries)
      (fun j w hw => storeLeaves_shape E entries j w hw) (depth - d) i s h with ⟨b, rfl⟩
  exact hE b

/-- The fundamental parent relation on stored-or-default node values of a
constructed tree: below the root, the value at (d, p) hashes the values of
its two children at level d+1. -/
theorem mkTree_nodeVal_parent (E : HashEngine) (depth : Nat)
    (entries : List (Nat × Bytes)) (d p : Nat) (h : d < depth) :
    nodeVal (mkTree E depth entries) d p
      = E.hash (nodeVal (mkTree E depth entries) (d + 1) (2 * p)
          ++ nodeVal (mkTree E depth entries) (d + 1) (2 * p + 1)) := by
  unfold nodeVal
  rw [mkTree_defaultNodes_getD E depth entries d (by omega),
    mkTree_defaultNodes_getD E depth entries (d + 1) (by omega),
    mkTree_levels]
  simp only
  have hk : depth - d = (depth - (d + 1)) + 1 := by omega
  rw [hk]
  exact levelAux_parent_getD E (storeLeaves E entries) (depth - (d + 1)) p

/-! Lemmas about the proof built by CreateMembershipProof. -/

theorem createAux_head_lt (lv : Nat → Nat → Option Bytes) :
    ∀ (d idx : Nat), (createAux lv d idx).1 < 2 ^ d := by
  intro d
  induction d with
  | zero => intro idx; simp [createAux]
  | succ d ih =>
    intro idx
    have hp : (2 : Nat) ^ (d + 1) = 2 ^ d * 2 := pow_succ 2 d
    have hr := ih (idx / 2)
    cases hlv : lv (d + 1) (goSibling idx) with
    | some s =>
      simp only [createAux, hlv]
      omega
    | none =>
      simp only [createAux, hlv]
      omega

theorem createAux_body_length (lv : Nat → Nat → Option Bytes) (sz : Nat)
    (hst : ∀ d i s, lv d i = some s → s.length = sz) :
    ∀ (d idx : Nat),
      (createAux lv d idx).2.length = sz * popCount (createAux lv d idx).1 := by
  intro d
  induction d with
  | zero => intro idx; simp [createAux, popCount, popCountAux]
  | succ d ih =>
    intro idx
    cases hlv : lv (d + 1) (goSibling idx) with
    | some s =>
      simp only [createAux, hlv, List.length_append]
      rw [popCount_two_mul_add_one, ih (idx / 2), hst (d + 1) (goSibling idx) s hlv]
      ring
    | none =>
      simp only [createAux, hlv]
      rw [popCount_two_mul, ih (idx / 2)]

theorem createAux_testBit (lv : Nat → Nat → Option Bytes) :
    ∀ (d idx j : Nat), j < d →
      (createAux lv d idx).1.testBit j
        = (lv (d - j) (goSibling (idx / 2 ^ j))).isSome := by
  intro d
  induction d with
  | zero => intro idx j h; exact absurd h (Nat.not_lt_zero j)
  | succ d ih =>
    intro idx j hj
    have hdiv : ∀ j : Nat, idx / 2 ^ (j + 1) = idx / 2 / 2 ^ j := by
      intro j
      rw [Nat.div_div_eq_div_mul, ← pow_succ']
    cases hlv : lv (d + 1) (goSibling idx) with
    | some s =>
      simp only [createAux, hlv]
      cases j with
      | zero =>
        rw [Nat.testBit_zero]
        have hm : (2 * (createAux lv d (idx / 2)).1 + 1) % 2 = 1 := by omega
        rw [hm]
        simp [hlv]
      | succ j =>
        rw [Nat.testBit_succ]
        have hm : (2 * (createAux lv d (idx / 2)).1 + 1) / 2
            = (createAux lv d (idx / 2)).1 := by omega
        rw [hm, ih (idx / 2) j (by omega), Nat.succ_sub_succ, hdiv j]
    | none =>
      simp only [createAux, hlv]
      cases j with
      | zero =>
        rw [Nat.testBit_zero]
        have hm : (2 * (createAux lv d (idx / 2)).1) % 2 = 0 := by omega
        rw [hm]
        simp [hlv]
      | succ j =>
        rw [Nat.testBit_succ]
        have hm : (2 * (createAux lv d (idx / 2)).1) / 2
            = (createAux lv d (idx / 2)).1 := by omega
        rw [hm, ih (idx / 2) j (by omega), Nat.succ_sub_succ, hdiv j]

theorem createAux_body_flatten (lv : Nat → Nat → Option Bytes) :
    ∀ (d idx : Nat),
      (createAux lv d idx).2
        = ((List.range d).filterMap
            (fun k => lv (d - k) (goSibling (idx / 2 ^ k)))).flatten := by
  intro d
  induction d with
  | zero => intro idx; simp [createAux]
  | succ d ih =>
    intro idx
    rw [List.range_succ_eq_map, List.filterMap_cons, List.filterMap_map]
    have hfun : ((fun k => lv (d + 1 - k) (goSibling (idx / 2 ^ k))) ∘ Nat.succ)
        = fun k => lv (d - k) (goSibling (idx / 2 / 2 ^ k)) := by
      funext k
      show lv (d + 1 - (k + 1)) (goSibling (idx / 2 ^ (k + 1))) = _
      rw [Nat.succ_sub_succ, Nat.div_div_eq_div_mul, ← pow_succ']
    rw [hfun]
    have hz : lv (d + 1 - 0) (goSibling (idx / 2 ^ 0)) = lv (d + 1) (goSibling idx) := by
      rw [Nat.sub_zero, pow_zero, Nat.div_one]
    rw [hz]
    cases hlv : lv (d + 1) (goSibling idx) with
    | some s => simp only [createAux, hlv, List.flatten_cons, ih (idx / 2)]
    | none => simp only [createAux, hlv, ih (idx / 2)]

theorem goSibling_even {i : Nat} (h : i % 2 = 0) : goSibling i = i + 1 := by
  simp [goSibling, h]

theorem goSibling_odd {i : Nat} (h : i % 2 = 1) : goSibling i = i - 1 := by
  simp [goSibling, h]

theorem popCount_le_of_lt_two_pow : ∀ (k n : Nat), n < 2 ^ k → popCount n ≤ k := by
  intro k
  induction k with
  | zero =>
    intro n h
    interval_cases n
    simp [popCount, popCountAux]
  | succ k ih =>
    intro n h
    cases n with
    | zero => simp [popCount, popCountAux]
    | succ m =>
      rw [popCount_succ_eq]
      have hdiv : (m + 1) / 2 < 2 ^ k := by
        have hp : (2 : Nat) ^ (k + 1) = 2 ^ k * 2 := pow_succ 2 k
        omega
      have := ih ((m + 1) / 2) hdiv
      omega

theorem Root_eq_nodeVal (t : Tree) : Root t = nodeVal t 0 0 := by
  unfold Root nodeVal
  cases t.levels 0 0 with
  | none => simp
  | some r => simp

/-- The verification walk undoes the creation walk: starting d levels below
the root at the tree's own stored-or-default value for the index, with the
head and body produced by the creation walk placed after an arbitrary prefix
of length pi, the walk reproduces the stored-or-default value of the
ancestor d levels up. -/
theorem verifyAux_roundtrip (E : HashEngine) (depth : Nat)
    (entries : List (Nat × Bytes)) (hE : ∀ b, (E.hash b).length = E.size) :
    ∀ (d idx : Nat) (pre : Bytes), d ≤ depth →
      verifyAux (mkTree E depth entries) d
        (nodeVal (mkTree E depth entries) d idx) idx
        (createAux (mkTree E depth entries).levels d idx).1 pre.length
        (pre ++ (createAux (mkTree E depth entries).levels d idx).2)
      = some (nodeVal (mkTree E depth entries) 0 (idx / 2 ^ d)) := by
  intro d
  induction d with
  | zero =>
    intro idx pre _
    show some _ = some _
    rw [pow_zero, Nat.div_one]
  | succ d ih =>
    intro idx pre hd
    have hdlt : d < depth := by omega
    have hparent := mkTree_nodeVal_parent E depth entries d (idx / 2) hdlt
    have hdiv2 : idx / 2 / 2 ^ d = idx / 2 ^ (d + 1) := by
      rw [Nat.div_div_eq_div_mul, ← pow_succ']
    have hb2 : ∀ sib : Bytes, sib = nodeVal (mkTree E depth entries) (d + 1) (goSibling idx) →
        (if idx % 2 == 0
          then E.hash (nodeVal (mkTree E depth entries) (d + 1) idx ++ sib)
          else E.hash (sib ++ nodeVal (mkTree E depth entries) (d + 1) idx))
        = nodeVal (mkTree E depth entries) d (idx / 2) := by
      intro sib hsib
      rcases Nat.mod_two_eq_zero_or_one idx with hpar | hpar
      · rw [if_pos (by simp [hpar])]
        rw [hparent]
        have h1 : 2 * (idx / 2) = idx := by omega
        have h2 : 2 * (idx / 2) + 1 = goSibling idx := by
          rw [goSibling_even hpar]; omega
        rw [h2, h1, hsib]
      · rw [if_neg (by simp [hpar])]
        rw [hparent]
        have h1 : 2 * (idx / 2) + 1 = idx := by omega
        have h2 : 2 * (idx / 2) = goSibling idx := by
          rw [goSibling_odd hpar]; omega
        rw [h1, h2, hsib]
    cases hlv : (mkTree E depth entries).levels (d + 1) (goSibling idx) with
    | some s =>
      have hslen : s.length = E.size :=
        mkTree_levels_some_length E depth entries hE (d + 1) (goSibling idx) s hlv
      simp only [createAux, hlv]
      show verifyAux (mkTree E depth entries) (d + 1) _ idx
          (2 * (createAux (mkTree E depth entries).levels d (idx / 2)).1 + 1)
          pre.length (pre ++ (s ++ (createAux (mkTree E depth entries).levels d (idx / 2)).2))
        = _
      rw [verifyAux]
      have hm1 : (2 * (createAux (mkTree E depth entries).levels d (idx / 2)).1 + 1) % 2 = 1 := by
        omega
      rw [if_neg (by simp [hm1])]
      have hbound : pre.length + (mkTree E depth entries).hashSize
          ≤ (pre ++ (s ++ (createAux (mkTree E depth entries).levels d (idx / 2)).2)).length := by
        rw [mkTree_hashSize]
        simp only [List.length_append]
        omega
      rw [if_pos hbound]
      have hread : ((pre ++ (s ++ (createAux (mkTree E depth entries).levels d (idx / 2)).2)).drop
          pre.length).take (mkTree E depth entries).hashSize = s := by
        rw [List.drop_left, mkTree_hashSize, ← hslen, List.take_left]
      rw [hread]
      have hsib : s = nodeVal (mkTree E depth entries) (d + 1) (goSibling idx) := by
        unfold nodeVal
        rw [hlv, Option.getD_some]
      rw [mkTree_hash] at *
      rw [hb2 s hsib]
      have hhd : (2 * (createAux (mkTree E depth entries).levels d (idx / 2)).1 + 1) / 2
          = (createAux (mkTree E depth entries).levels d (idx / 2)).1 := by omega
      rw [hhd]
      have hpre : pre.length + (mkTree E depth entries).hashSize = (pre ++ s).length := by
        rw [mkTree_hashSize]
        simp only [List.length_append]
        omega
      rw [hpre]
      have happ : pre ++ (s ++ (createAux (mkTree E depth entries).levels d (idx / 2)).2)
          = (pre ++ s) ++ (createAux (mkTree E depth entries).levels d (idx / 2)).2 :=
        (List.append_assoc pre s _).symm
      rw [happ]
      rw [ih (idx / 2) (pre ++ s) (by omega), hdiv2]
    | none =>
      simp only [createAux, hlv]
      show verifyAux (mkTree E depth entries) (d + 1) _ idx
          (2 * (createAux (mkTree E depth entries).levels d (idx / 2)).1)
          pre.length (pre ++ (createAux (mkTree E depth entries).levels d (idx / 2)).2)
        = _
      rw [verifyAux]
      have hm0 : (2 * (createAux (mkTree E depth entries).levels d (idx / 2)).1) % 2 = 0 := by
        omega
      rw [if_pos (by simp [hm0])]
      have hsib : (mkTree E depth entries).defaultNodes.getD (d + 1) []
          = nodeVal (mkTree E depth entries) (d + 1) (goSibling idx) := by
        unfold nodeVal
        rw [hlv, Option.getD_none]
      rw [mkTree_hash] at *
      rw [hsib, hb2 _ rfl]
      have hhd : (2 * (createAux (mkTree E depth entries).levels d (idx / 2)).1) / 2
          = (createAux (mkTree E depth entries).levels d (idx / 2)).1 := by omega
      rw [hhd]
      rw [ih (idx / 2) pre (by omega), hdiv2]

theorem nodeVal_def (t : Tree) (d i : Nat) :
    (t.levels d i).getD (t.defaultNodes.getD d []) = nodeVal t d i := rfl

theorem beUint_take_eight (H : Nat) (B : Bytes) (h : H < 2 ^ 64) :
    beUint ((beBytes 8 H ++ B).take 8) = H := by
  have h64 : (2 : Nat) ^ (8 * 8) = 2 ^ 64 := by norm_num
  rw [List.take_left' (beBytes_length 8 H), beUint_beBytes, h64]
  exact Nat.mod_eq_of_lt h

theorem le_goIndexMax_of_lt_pow {idx depth : Nat} (h64 : depth ≤ 64)
    (h : idx < 2 ^ depth) : idx ≤ goIndexMax depth := by
  have := goIndexMax_ge depth h64
  omega

/-- C1: for every successfully constructed tree (any hash engine whose
digests have its declared positive size and whose size times the depth does
not overflow uint64, any depth at most 64, any accepted leaf list) and every
index below 2^depth, the proof returned by CreateMembershipProof verifies:
VerifyMembershipProof returns the boolean true with no error and no panic,
both for supplied and for absent indices. -/
theorem C1_roundtrip_verify_create (E : HashEngine) (depth : Nat)
    (entries : List (Nat × Bytes)) (t : Tree) (idx : Nat)
    (hE : ∀ b, (E.hash b).length = E.size)
    (hsz : 0 < E.size)
    (hov : E.size * depth + 8 < 2 ^ 64)
    (ht : NewTree E depth entries = Except.ok t)
    (hidx : idx < 2 ^ depth) :
    ∃ p, CreateMembershipProof t idx = Except.ok p
      ∧ VerifyMembershipProof t idx p = VResult.ok true := by
  obtain ⟨hd64, hmax, hteq⟩ := NewTree_ok_elim ht
  subst hteq
  have hni : ¬ idx > (mkTree E depth entries).indexMax := by
    rw [mkTree_indexMax]
    exact Nat.not_lt.mpr (le_goIndexMax_of_lt_pow hd64 hidx)
  refine ⟨beBytes 8 (createAux (mkTree E depth entries).levels depth idx).1
      ++ (createAux (mkTree E depth entries).levels depth idx).2, ?_, ?_⟩
  · unfold CreateMembershipProof
    rw [if_neg hni, mkTree_depth]
  · have hHlt : (createAux (mkTree E depth entries).levels depth idx).1 < 2 ^ depth :=
      createAux_head_lt _ depth idx
    have hBlen : (createAux (mkTree E depth entries).levels depth idx).2.length
        = E.size * popCount (createAux (mkTree E depth entries).levels depth idx).1 :=
      createAux_body_length _ E.size
        (fun d i s h => mkTree_levels_some_length E depth entries hE d i s h) depth idx
    have hpc : popCount (createAux (mkTree E depth entries).levels depth idx).1 ≤ depth :=
      popCount_le_of_lt_two_pow depth _ hHlt
    have hmul := Nat.mul_le_mul_left E.size hpc
    have hlen : (beBytes 8 (createAux (mkTree E depth entries).levels depth idx).1
        ++ (createAux (mkTree E depth entries).levels depth idx).2).length
        = 8 + E.size * popCount (createAux (mkTree E depth entries).levels depth idx).1 := by
      rw [List.length_append, beBytes_length, hBlen]
    unfold VerifyMembershipProof
    rw [if_neg hni]
    rw [if_neg (by
      rw [mkTree_hashSize, mkTree_depth, Nat.mod_eq_of_lt hov, hlen]
      omega)]
    rw [if_neg (by
      rw [mkTree_hashSize, hlen]
      have h1 : 8 + E.size * popCount (createAux (mkTree E depth entries).levels depth idx).1
          + (2 ^ 64 - 8)
          = E.size * popCount (createAux (mkTree E depth entries).levels depth idx).1
            + 2 ^ 64 := by omega
      rw [h1, Nat.add_mod_right,
        Nat.mod_eq_of_lt (by omega :
          E.size * popCount (createAux (mkTree E depth entries).levels depth idx).1 < 2 ^ 64),
        Nat.mul_mod_right]
      simp)]
    rw [if_neg (by rw [hlen]; omega)]
    rw [mkTree_depth, nodeVal_def,
      beUint_take_eight _ _ (lt_of_lt_of_le hHlt (Nat.pow_le_pow_right (by norm_num) hd64))]
    have hwalk := verifyAux_roundtrip E depth entries hE depth idx
      (beBytes 8 (createAux (mkTree E depth entries).levels depth idx).1) (le_refl depth)
    rw [beBytes_length] at hwalk
    rw [hwalk, Nat.div_eq_of_lt hidx]
    show VResult.ok (nodeVal (mkTree E depth entries) 0 0 == Root (mkTree E depth entries))
      = VResult.ok true
    rw [Root_eq_nodeVal, beq_self_eq_true]

/-- C1 witness: the concrete depth-3 two-leaf tree of the repository tests,
queried at the absent index 1 (non-inclusion) and at the supplied index 3
(inclusion). -/
theorem C1_roundtrip_verify_create_witness :
    (∃ p, CreateMembershipProof (mkTree testE32 3 testEntries) 1 = Except.ok p
        ∧ VerifyMembershipProof (mkTree testE32 3 testEntries) 1 p = VResult.ok true)
    ∧ (∃ p, CreateMembershipProof (mkTree testE32 3 testEntries) 3 = Except.ok p
        ∧ VerifyMembershipProof (mkTree testE32 3 testEntries) 3 p = VResult.ok true) :=
  ⟨C1_roundtrip_verify_create testE32 3 testEntries _ 1
      (fun b => by simp [testE32]) (by decide) (by decide)
      (NewTree_ok_of testE32 3 testEntries (by decide) (by decide)) (by decide),
    C1_roundtrip_verify_create testE32 3 testEntries _ 3
      (fun b => by simp [testE32]) (by decide) (by decide)
      (NewTree_ok_of testE32 3 testEntries (by decide) (by decide)) (by decide)⟩

/-- C7: Root returns levels[0][0] when that entry is stored and
defaultNodes[0] otherwise — it is total, with no error path — and for every
depth a tree constructed from an empty leaf map has Root() equal to
defaultNodes[0]. -/
theorem C7_root (E : HashEngine) (depth : Nat) (entries : List (Nat × Bytes))
    (t : Tree) (ht : NewTree E depth entries = Except.ok t) :
    (∀ r, t.levels 0 0 = some r → Root t = r)
    ∧ (t.levels 0 0 = none → Root t = t.defaultNodes.getD 0 [])
    ∧ (entries = [] → Root t = t.defaultNodes.getD 0 []) := by
  obtain ⟨hd64, hmax, hteq⟩ := NewTree_ok_elim ht
  subst hteq
  refine ⟨?_, ?_, ?_⟩
  · intro r hr
    unfold Root
    rw [hr]
  · intro hr
    unfold Root
    rw [hr]
  · intro he
    subst he
    have h0 : (mkTree E depth []).levels 0 0 = none := by
      rw [mkTree_levels]
      show levelAux E (storeLeaves E []) (depth - 0) 0 = none
      rw [storeLeaves_nil]
      exact levelAux_empty E (depth - 0) 0
    unfold Root
    rw [h0]

/-- C7 witness: a depth-2 tree with no leaves has the default root. -/
theorem C7_root_witness :
    Root (mkTree testE32 2 []) = (mkTree testE32 2 []).defaultNodes.getD 0 [] :=
  (C7_root testE32 2 [] _ (NewTree_ok_of testE32 2 [] (by decide) (by decide))).2.2 rfl

/-- C6: the default node table of every constructed depth-D tree has exactly
D+1 entries, entry D is the hash of hashSize zero bytes, entry d-1 hashes
entry d with itself for d = D downto 1, and the table is the same for any
two trees built with the same engine and depth, whatever the leaves. -/
theorem C6_default_nodes (E : HashEngine) (depth : Nat)
    (entries entries2 : List (Nat × Bytes)) (t t2 : Tree)
    (ht : NewTree E depth entries = Except.ok t)
    (ht2 : NewTree E depth entries2 = Except.ok t2) :
    t.defaultNodes.length = depth + 1
    ∧ t.defaultNodes.getD depth [] = E.hash (List.replicate E.size 0)
    ∧ (∀ d, 1 ≤ d → d ≤ depth →
        t.defaultNodes.getD (d - 1) []
          = E.hash (t.defaultNodes.getD d [] ++ t.defaultNodes.getD d []))
    ∧ t2.defaultNodes = t.defaultNodes := by
  obtain ⟨hd64, hmax, hteq⟩ := NewTree_ok_elim ht
  obtain ⟨hd64b, hmaxb, hteq2⟩ := NewTree_ok_elim ht2
  subst hteq
  subst hteq2
  refine ⟨?_, ?_, ?_, ?_⟩
  · rw [mkTree_defaultNodes]
    exact buildDefaultNodes_length E depth
  · rw [mkTree_defaultNodes, buildDefaultNodes_getD E depth depth (le_refl depth),
      Nat.sub_self]
    rfl
  · intro d h1 h2
    rw [mkTree_defaultNodes, buildDefaultNodes_getD E depth (d - 1) (by omega),
      buildDefaultNodes_getD E depth d h2]
    have hk : depth - (d - 1) = (depth - d) + 1 := by omega
    rw [hk]
    rfl
  · rw [mkTree_defaultNodes, mkTree_defaultNodes]

/-- C6 witness: the concrete depth-2 tables for two different leaf sets. -/
theorem C6_default_nodes_witness :
    (mkTree testE32 2 testEntries).defaultNodes.length = 2 + 1
    ∧ (mkTree testE32 2 []).defaultNodes = (mkTree testE32 2 testEntries).defaultNodes := by
  have h := C6_default_nodes testE32 2 testEntries [] _ _
    (NewTree_ok_of testE32 2 testEntries (by decide) (by decide))
    (NewTree_ok_of testE32 2 [] (by decide) (by decide))
  exact ⟨h.1, h.2.2.2⟩

/-- C9: after construction, for every level d up to the depth, the stored
entries of level d are exactly the level-d ancestors of the supplied leaf
indices (the supplied indices themselves at d = depth). -/
theorem C9_stored_iff_ancestor (E : HashEngine) (depth : Nat)
    (entries : List (Nat × Bytes)) (t : Tree)
    (ht : NewTree E depth entries = Except.ok t) :
    ∀ d i, d ≤ depth →
      ((t.levels d i).isSome
        ↔ ∃ j, j ∈ entries.map Prod.fst ∧ j / 2 ^ (depth - d) = i) := by
  obtain ⟨hd64, hmax, hteq⟩ := NewTree_ok_elim ht
  subst hteq
  intro d i hd
  rw [mkTree_levels]
  show (levelAux E (storeLeaves E entries) (depth - d) i).isSome ↔ _
  rw [levelAux_isSome]
  constructor
  · rintro ⟨j, hj1, hj2⟩
    exact ⟨j, (storeLeaves_isSome E entries j).mp hj1, hj2⟩
  · rintro ⟨j, hj1, hj2⟩
    exact ⟨j, (storeLeaves_isSome E entries j).mpr hj1, hj2⟩

/-- C9 witness: in the depth-2 tree with leaves at 0 and 3, level 1 stores
index 0 (the parent of leaf 0). -/
theorem C9_stored_iff_ancestor_witness :
    ((mkTree testE32 2 testEntries).levels 1 0).isSome
      ↔ ∃ j, j ∈ testEntries.map Prod.fst ∧ j / 2 ^ (2 - 1) = 0 :=
  C9_stored_iff_ancestor testE32 2 testEntries _
    (NewTree_ok_of testE32 2 testEntries (by decide) (by decide)) 1 0 (by decide)

/-- C10: with hashSize 32, a proof shorter than the 8-byte head is rejected
with ErrInvalidProofSize before the head is decoded: the uint64 subtraction
len - 8 wraps and its value mod 32 lies in 24..31, never 0. -/
theorem C10_short_proof (E : HashEngine) (depth : Nat)
    (entries : List (Nat × Bytes)) (t : Tree) (idx : Nat) (proof : Bytes)
    (hsz : E.size = 32)
    (ht : NewTree E depth entries = Except.ok t)
    (hidx : idx ≤ t.indexMax)
    (hlt : proof.length < 8) :
    VerifyMembershipProof t idx proof = VResult.err MErr.invalidProofSize := by
  obtain ⟨hd64, hmax, hteq⟩ := NewTree_ok_elim ht
  subst hteq
  unfold VerifyMembershipProof
  rw [if_neg (Nat.not_lt.mpr hidx)]
  rw [if_neg (by
    rw [mkTree_hashSize, mkTree_depth, hsz]
    rw [Nat.mod_eq_of_lt (by omega : 32 * depth + 8 < 2 ^ 64)]
    omega)]
  rw [if_pos (by
    rw [mkTree_hashSize, hsz]
    omega)]

/-- C10 witness: a 3-byte proof against the concrete depth-2 tree. -/
theorem C10_short_proof_witness :
    VerifyMembershipProof (mkTree testE32 2 testEntries) 0 [0, 0, 0]
      = VResult.err MErr.invalidProofSize :=
  C10_short_proof testE32 2 testEntries _ 0 [0, 0, 0] rfl
    (NewTree_ok_of testE32 2 testEntries (by decide) (by decide))
    (by decide) (by decide)

/-- C4: a created proof is an 8-byte big-endian head followed by the stored
sibling digests in leaf-to-root order; bit depth-d of the head is set
exactly when the sibling at level d is stored; bits at positions at or
above the depth are clear; and the total length is 8 plus hashSize times
the popcount of the head. -/
theorem C4_proof_format (E : HashEngine) (depth : Nat)
    (entries : List (Nat × Bytes)) (t : Tree) (idx : Nat) (p : Bytes)
    (hE : ∀ b, (E.hash b).length = E.size)
    (ht : NewTree E depth entries = Except.ok t)
    (hcp : CreateMembershipProof t idx = Except.ok p) :
    p = beBytes 8 (beUint (p.take 8))
        ++ ((List.range depth).filterMap
            (fun k => t.levels (depth - k) (goSibling (idx / 2 ^ k)))).flatten
    ∧ (∀ d, 1 ≤ d → d ≤ depth →
        (beUint (p.take 8)).testBit (depth - d)
          = (t.levels d (goSibling (idx / 2 ^ (depth - d)))).isSome)
    ∧ (∀ j, depth ≤ j → (beUint (p.take 8)).testBit j = false)
    ∧ p.length = 8 + E.size * popCount (beUint (p.take 8)) := by
  obtain ⟨hd64, hmax, hteq⟩ := NewTree_ok_elim ht
  subst hteq
  unfold CreateMembershipProof at hcp
  by_cases hgt : idx > (mkTree E depth entries).indexMax
  · rw [if_pos hgt] at hcp
    exact Except.noConfusion hcp
  · rw [if_neg hgt, mkTree_depth] at hcp
    injection hcp with hp
    subst hp
    have hHlt : (createAux (mkTree E depth entries).levels depth idx).1 < 2 ^ depth :=
      createAux_head_lt _ depth idx
    have hdec : beUint ((beBytes 8 (createAux (mkTree E depth entries).levels depth idx).1
        ++ (createAux (mkTree E depth entries).levels depth idx).2).take 8)
        = (createAux (mkTree E depth entries).levels depth idx).1 :=
      beUint_take_eight _ _
        (lt_of_lt_of_le hHlt (Nat.pow_le_pow_right (by norm_num) hd64))
    rw [hdec]
    refine ⟨?_, ?_, ?_, ?_⟩
    · rw [createAux_body_flatten _ depth idx]
    · intro d h1 h2
      rw [createAux_testBit _ depth idx (depth - d) (by omega)]
      have hdd : depth - (depth - d) = d := by omega
      rw [hdd]
    · intro j hj
      exact Nat.testBit_lt_two_pow
        (lt_of_lt_of_le hHlt (Nat.pow_le_pow_right (by norm_num) hj))
    · rw [List.length_append, beBytes_length,
        createAux_body_length _ E.size
          (fun d i s h => mkTree_levels_some_length E depth entries hE d i s h) depth idx]

/-- C4 witness: the length law for the concrete depth-2 tree at index 0. -/
theorem C4_proof_format_witness :
    (beBytes 8 (createAux (mkTree testE32 2 testEntries).levels 2 0).1
        ++ (createAux (mkTree testE32 2 testEntries).levels 2 0).2).length
      = 8 + testE32.size * popCount (beUint
          ((beBytes 8 (createAux (mkTree testE32 2 testEntries).levels 2 0).1
            ++ (createAux (mkTree testE32 2 testEntries).levels 2 0).2).take 8)) :=
  (C4_proof_format testE32 2 testEntries _ 0 _ (fun b => by simp [testE32])
    (NewTree_ok_of testE32 2 testEntries (by decide) (by decide)) rfl).2.2.2

/-- C5 (amended: restricted to trees of depth at least 1, where the
indexMax bound agrees with 2^depth - 1): VerifyMembershipProof returns an
error exactly on the three conditions of the claim, checked in the claimed
order, with the uint64-wrapping subtraction len - 8 written out; when all
three checks pass the result is a boolean (or, for a head overclaiming
siblings, the out-of-bounds panic of C2) — never an error. -/
theorem C5_verify_error_conditions (E : HashEngine) (depth : Nat)
    (entries : List (Nat × Bytes)) (t : Tree) (idx : Nat) (proof : Bytes)
    (hd1 : 1 ≤ depth)
    (hsz : 0 < E.size)
    (hov : E.size * depth + 8 < 2 ^ 64)
    (hidx64 : idx < 2 ^ 64)
    (ht : NewTree E depth entries = Except.ok t) :
    (VerifyMembershipProof t idx proof = VResult.err MErr.tooLargeLeafIndex
        ↔ 2 ^ depth ≤ idx)
    ∧ (VerifyMembershipProof t idx proof = VResult.err MErr.tooLargeProofSize
        ↔ idx < 2 ^ depth ∧ E.size * depth + 8 < proof.length)
    ∧ (VerifyMembershipProof t idx proof = VResult.err MErr.invalidProofSize
        ↔ idx < 2 ^ depth ∧ proof.length ≤ E.size * depth + 8
            ∧ (proof.length + (2 ^ 64 - 8)) % 2 ^ 64 % E.size ≠ 0)
    ∧ ((∃ e, VerifyMembershipProof t idx proof = VResult.err e)
        ↔ (2 ^ depth ≤ idx ∨ E.size * depth + 8 < proof.length
            ∨ (proof.length + (2 ^ 64 - 8)) % 2 ^ 64 % E.size ≠ 0)) := by
  obtain ⟨hd64, hmax, hteq⟩ := NewTree_ok_elim ht
  subst hteq
  have hpos : 0 < 2 ^ depth := Nat.two_pow_pos depth
  have hmx : (mkTree E depth entries).indexMax = 2 ^ depth - 1 := by
    rw [mkTree_indexMax, goIndexMax_of_pos depth hd1 hd64]
  unfold VerifyMembershipProof
  rw [hmx, mkTree_hashSize, mkTree_depth, Nat.mod_eq_of_lt hov]
  by_cases h1 : 2 ^ depth - 1 < idx
  · have h1b : 2 ^ depth ≤ idx := by omega
    have h1c : ¬ idx < 2 ^ depth := by omega
    rw [if_pos h1]
    refine ⟨?_, ?_, ?_, ?_⟩
    · exact ⟨fun _ => h1b, fun _ => rfl⟩
    · constructor
      · intro h
        injection h with h2
        exact MErr.noConfusion h2
      · rintro ⟨hlt, _⟩
        exact absurd hlt h1c
    · constructor
      · intro h
        injection h with h2
        exact MErr.noConfusion h2
      · rintro ⟨hlt, _⟩
        exact absurd hlt h1c
    · exact ⟨fun _ => Or.inl h1b, fun _ => ⟨MErr.tooLargeLeafIndex, rfl⟩⟩
  · have hlt : idx < 2 ^ depth := by omega
    have h1c : ¬ 2 ^ depth ≤ idx := by omega
    rw [if_neg h1]
    by_cases h2 : proof.length > E.size * depth + 8
    · rw [if_pos h2]
      refine ⟨?_, ?_, ?_, ?_⟩
      · constructor
        · intro h
          injection h with h3
          exact MErr.noConfusion h3
        · intro h
          exact absurd h h1c
      · exact ⟨fun _ => ⟨hlt, h2⟩, fun _ => rfl⟩
      · constructor
        · intro h
          injection h with h3
          exact MErr.noConfusion h3
        · rintro ⟨_, hle, _⟩
          omega
      · exact ⟨fun _ => Or.inr (Or.inl h2), fun _ => ⟨MErr.tooLargeProofSize, rfl⟩⟩
    · rw [if_neg h2]
      by_cases h3 : (proof.length + (2 ^ 64 - 8)) % 2 ^ 64 % E.size ≠ 0
      · rw [if_pos h3]
        refine ⟨?_, ?_, ?_, ?_⟩
        · constructor
          · intro h
            injection h with h4
            exact MErr.noConfusion h4
          · intro h
            exact absurd h h1c
        · constructor
          · intro h
            injection h with h4
            exact MErr.noConfusion h4
          · rintro ⟨_, hgt⟩
            exact absurd hgt h2
        · exact ⟨fun _ => ⟨hlt, by omega, h3⟩, fun _ => rfl⟩
        · exact ⟨fun _ => Or.inr (Or.inr h3), fun _ => ⟨MErr.invalidProofSize, rfl⟩⟩
      · rw [if_neg h3]
        have hnoerr : ∀ e : MErr,
            (if proof.length < 8 then VResult.panic
             else match verifyAux (mkTree E depth entries) depth
                ((((mkTree E depth entries)).levels depth idx).getD
                  ((mkTree E depth entries).defaultNodes.getD depth []))
                idx (beUint (proof.take 8)) 8 proof with
              | some b => VResult.ok (b == Root (mkTree E depth entries))
              | none => VResult.panic) ≠ VResult.err e := by
          intro e
          by_cases h4 : proof.length < 8
          · rw [if_pos h4]
            exact fun h => VResult.noConfusion h
          · rw [if_neg h4]
            cases hv : verifyAux (mkTree E depth entries) depth
                ((((mkTree E depth entries)).levels depth idx).getD
                  ((mkTree E depth entries).defaultNodes.getD depth []))
                idx (beUint (proof.take 8)) 8 proof with
            | some b => exact fun h => VResult.noConfusion h
            | none => exact fun h => VResult.noConfusion h
        refine ⟨?_, ?_, ?_, ?_⟩
        · constructor
          · intro h
            exact absurd h (hnoerr MErr.tooLargeLeafIndex)
          · intro h
            exact absurd h h1c
        · constructor
          · intro h
            exact absurd h (hnoerr MErr.tooLargeProofSize)
          · rintro ⟨_, hgt⟩
            exact absurd hgt h2
        · constructor
          · intro h
            exact absurd h (hnoerr MErr.invalidProofSize)
          · rintro ⟨_, _, hne⟩
            exact absurd hne h3
        · constructor
          · rintro ⟨e, he⟩
            exact absurd he (hnoerr e)
          · rintro (hc | hc | hc)
            · exact absurd hc h1c
            · exact absurd hc h2
            · exact absurd hc h3

/-- C5 witness: on the concrete depth-1 empty tree, the out-of-range index
2 is rejected with ErrTooLargeLeafIndex, by the first conjunct of the
amended claim. -/
theorem C5_verify_error_conditions_witness :
    VerifyMembershipProof (mkTree testE32 1 []) 2 [] = VResult.err MErr.tooLargeLeafIndex :=
  ((C5_verify_error_conditions testE32 1 [] _ 2 [] (by decide) (by decide)
      (by decide) (by decide)
      (NewTree_ok_of testE32 1 [] (by decide) (by decide))).1).mpr (by decide)

/-- C5 counterexample: the claim fails on depth-0 trees. For the tree of
depth 0 with no leaves, index 1 satisfies the claim's first error condition
1 at least 2^0, so the claim predicts ErrTooLargeLeafIndex; but the
underflowed index bound accepts every index and verification of the 8-byte
all-zero proof returns the plain boolean true with no error. -/
theorem C5_counterexample :
    ∃ t, NewTree testE32 0 [] = Except.ok t
      ∧ 2 ^ t.depth ≤ 1
      ∧ VerifyMembershipProof t 1 (List.replicate 8 0) = VResult.ok true := by
  refine ⟨mkTree testE32 0 [], ?_, ?_, ?_⟩
  · apply NewTree_ok_of
    · norm_num
    · intro h
      rw [goIndexMax_zero] at h
      have hmx : maxIndex ([] : List (Nat × Bytes)) = 0 := rfl
      rw [hmx] at h
      exact Nat.not_lt_zero _ h
  · rw [mkTree_depth]
    norm_num
  · unfold VerifyMembershipProof
    rw [if_neg (by
      rw [mkTree_indexMax, goIndexMax_zero]
      norm_num : ¬ (1 : Nat) > (mkTree testE32 0 []).indexMax)]
    decide

/-- C3 (code bug): at depth 0 the computation of indexMax underflows — the
uint64 shift amount depth-1 wraps to 2^64-1, the low 64 bits of the shifted
big integer are 0, and subtracting 1 wraps to 2^64-1 — so NewTree accepts
leaf index 1 although 1 is not below 2^0 = 1; the claim (and the spec,
which demands underflow-free handling of depth 0) requires
ErrTooLargeLeafIndex here. -/
theorem C3_depth_zero_accepts_out_of_range_index :
    NewTree testE32 0 [(1, [1])] = Except.ok (mkTree testE32 0 [(1, [1])])
    ∧ ¬ (1 : Nat) < 2 ^ 0 := by
  constructor
  · apply NewTree_ok_of
    · norm_num
    · intro h
      rw [goIndexMax_zero] at h
      have hmx : maxIndex [((1 : Nat), ([1] : Bytes))] = 1 := rfl
      rw [hmx] at h
      omega
  · norm_num

theorem popCount_mod_two_pow_succ (head d : Nat) :
    popCount (head % 2 ^ (d + 1)) = head % 2 + popCount (head / 2 % 2 ^ d) := by
  rw [mod_two_pow_succ]
  rcases Nat.mod_two_eq_zero_or_one head with hp | hp
  · rw [hp, Nat.zero_add, popCount_two_mul, Nat.zero_add]
  · rw [hp]
    have hc : 1 + 2 * (head / 2 % 2 ^ d) = 2 * (head / 2 % 2 ^ d) + 1 := by omega
    rw [hc, popCount_two_mul_add_one]
    exact Nat.add_comm _ _

/-- The verification walk completes without an out-of-bounds read whenever
the proof holds hashSize bytes for every set bit among the low d bits of
the remaining head, starting at read position pi. -/
theorem verifyAux_no_panic (t : Tree) :
    ∀ (d : Nat) (b : Bytes) (idx head pi : Nat) (proof : Bytes),
      pi + t.hashSize * popCount (head % 2 ^ d) ≤ proof.length →
      ∃ r, verifyAux t d b idx head pi proof = some r := by
  intro d
  induction d with
  | zero =>
    intro b idx head pi proof _
    exact ⟨b, rfl⟩
  | succ d ih =>
    intro b idx head pi proof hb
    rw [popCount_mod_two_pow_succ] at hb
    rcases Nat.mod_two_eq_zero_or_one head with hp | hp
    · rw [verifyAux, if_pos (by simp [hp])]
      apply ih
      rw [hp, Nat.zero_add] at hb
      exact hb
    · rw [verifyAux, if_neg (by simp [hp])]
      rw [hp] at hb
      have hmul : t.hashSize * (1 + popCount (head / 2 % 2 ^ d))
          = t.hashSize + t.hashSize * popCount (head / 2 % 2 ^ d) := by ring
      rw [hmul] at hb
      rw [if_pos (by omega)]
      apply ih
      omega

/-- C2 counterexample: for the depth-1 empty tree and index 0, the 8-byte
proof with head bitmap 1 and empty body passes all three up-front checks of
VerifyMembershipProof, yet the walk reads sibling bytes past the end of the
proof: a Go out-of-bounds slice panic, refuting the claim that the size
checks bound every sibling read. -/
theorem C2_counterexample :
    ∃ t, NewTree testE32 1 [] = Except.ok t
      ∧ ¬ (0 : Nat) > t.indexMax
      ∧ ¬ ([0, 0, 0, 0, 0, 0, 0, 1] : Bytes).length
          > (t.hashSize * t.depth + 8) % 2 ^ 64
      ∧ (([0, 0, 0, 0, 0, 0, 0, 1] : Bytes).length + (2 ^ 64 - 8)) % 2 ^ 64
          % t.hashSize = 0
      ∧ VerifyMembershipProof t 0 [0, 0, 0, 0, 0, 0, 0, 1] = VResult.panic :=
  ⟨mkTree testE32 1 [],
    NewTree_ok_of testE32 1 [] (by decide) (by decide),
    by decide, by decide, by decide, by decide⟩

/-- C2 (amended): the three up-front checks alone do not bound the walk's
sibling reads; the missing premise is that the body holds hashSize bytes
per set bit among the low depth bits of the decoded head. Under that extra
premise every read stays inside the proof and verification returns a plain
boolean. -/
theorem C2_walk_in_bounds (E : HashEngine) (depth : Nat)
    (entries : List (Nat × Bytes)) (t : Tree) (idx : Nat) (proof : Bytes)
    (ht : NewTree E depth entries = Except.ok t)
    (hidx : ¬ idx > t.indexMax)
    (h8 : 8 ≤ proof.length)
    (hc2 : ¬ proof.length > (t.hashSize * t.depth + 8) % 2 ^ 64)
    (hc3 : (proof.length + (2 ^ 64 - 8)) % 2 ^ 64 % t.hashSize = 0)
    (hbits : 8 + t.hashSize * popCount (beUint (proof.take 8) % 2 ^ t.depth)
        ≤ proof.length) :
    ∃ b, VerifyMembershipProof t idx proof = VResult.ok b := by
  unfold VerifyMembershipProof
  rw [if_neg hidx, if_neg hc2, if_neg (fun hn => hn hc3),
    if_neg (by omega : ¬ proof.length < 8)]
  obtain ⟨r, hr⟩ := verifyAux_no_panic t t.depth
    ((t.levels t.depth idx).getD (t.defaultNodes.getD t.depth []))
    idx (beUint (proof.take 8)) 8 proof hbits
  refine ⟨r == Root t, ?_⟩
  rw [hr]

/-- C2 witness: the all-zero 8-byte proof (head 0, no siblings claimed)
walks the depth-1 empty tree fully in bounds. -/
theorem C2_walk_in_bounds_witness :
    ∃ b, VerifyMembershipProof (mkTree testE32 1 []) 0 (List.replicate 8 0)
      = VResult.ok b :=
  C2_walk_in_bounds testE32 1 [] _ 0 (List.replicate 8 0)
    (NewTree_ok_of testE32 1 [] (by decide) (by decide))
    (by decide) (by decide) (by decide) (by decide) (by decide)

/-! Order-independence of the bottom-up build (claim C8). -/

theorem parentLevel_eq_some (E : HashEngine) (dflt : Bytes)
    (lv : Nat → Option Bytes) (p : Nat)
    (h : (lv (2 * p)).isSome ∨ (lv (2 * p + 1)).isSome) :
    parentLevel E dflt lv p
      = some (E.hash ((lv (2 * p)).getD dflt ++ (lv (2 * p + 1)).getD dflt)) := by
  unfold parentLevel
  rw [if_pos (by rcases h with h | h <;> simp [h])]

theorem buildStepF_eq_some (E : HashEngine) (dflt : Bytes)
    (lv acc : Nat → Option Bytes) (i : Nat) (node : Bytes) (h : lv i = some node) :
    buildStepF E dflt lv acc i
      = if i % 2 == 0 then
          Function.update acc (i / 2) (some (E.hash (node ++ (lv (i + 1)).getD dflt)))
        else match lv (i - 1) with
          | some _ => acc
          | none => Function.update acc (i / 2) (some (E.hash (dflt ++ node))) := by
  unfold buildStepF
  rw [h]

theorem buildStepF_at (E : HashEngine) (dflt : Bytes) (lv : Nat → Option Bytes)
    (acc : Nat → Option Bytes) (i p : Nat) (hi : (lv i).isSome) :
    buildStepF E dflt lv acc i p
      = if pairWriter lv p = some i then parentLevel E dflt lv p else acc p := by
  obtain ⟨node, hnode⟩ := Option.isSome_iff_exists.mp hi
  rw [buildStepF_eq_some E dflt lv acc i node hnode]
  rcases Nat.mod_two_eq_zero_or_one i with hpar | hpar
  · rw [if_pos (by simp [hpar])]
    by_cases hp : p = i / 2
    · subst hp
      have h2p : 2 * (i / 2) = i := by omega
      have hw : pairWriter lv (i / 2) = some i := by
        unfold pairWriter
        rw [h2p, if_pos hi]
      rw [hw, if_pos rfl, Function.update_apply, if_pos rfl,
        parentLevel_eq_some E dflt lv (i / 2) (Or.inl (by rw [h2p]; exact hi)),
        h2p, hnode]
      rfl
    · have hw : pairWriter lv p ≠ some i := by
        unfold pairWriter
        by_cases e1 : (lv (2 * p)).isSome
        · rw [if_pos e1]
          intro hc
          injection hc with hc2
          exact hp (by omega)
        · rw [if_neg e1]
          by_cases e2 : (lv (2 * p + 1)).isSome
          · rw [if_pos e2]
            intro hc
            injection hc with hc2
            omega
          · rw [if_neg e2]
            exact fun hc => Option.noConfusion hc
      rw [if_neg hw, Function.update_apply, if_neg hp]
  · rw [if_neg (by simp [hpar])]
    cases hsib : lv (i - 1) with
    | some s2 =>
      have hw : pairWriter lv p ≠ some i := by
        unfold pairWriter
        by_cases e1 : (lv (2 * p)).isSome
        · rw [if_pos e1]
          intro hc
          injection hc with hc2
          omega
        · rw [if_neg e1]
          by_cases e2 : (lv (2 * p + 1)).isSome
          · rw [if_pos e2]
            intro hc
            injection hc with hc2
            apply e1
            have h2p : 2 * p = i - 1 := by omega
            rw [h2p, hsib]
            rfl
          · rw [if_neg e2]
            exact fun hc => Option.noConfusion hc
      rw [if_neg hw]
    | none =>
      by_cases hp : p = i / 2
      · subst hp
        have h2p1 : 2 * (i / 2) + 1 = i := by omega
        have h2p : 2 * (i / 2) = i - 1 := by omega
        have hw : pairWriter lv (i / 2) = some i := by
          unfold pairWriter
          rw [h2p1, h2p, hsib]
          rw [if_neg (by simp), if_pos hi]
        rw [hw, if_pos rfl,
          parentLevel_eq_some E dflt lv (i / 2) (Or.inr (by rw [h2p1]; exact hi)),
          h2p1, h2p, hsib, hnode]
        show Function.update acc (i / 2) (some (E.hash (dflt ++ node))) (i / 2) = _
        rw [Function.update_apply, if_pos rfl]
        rfl
      · have hw : pairWriter lv p ≠ some i := by
          unfold pairWriter
          by_cases e1 : (lv (2 * p)).isSome
          · rw [if_pos e1]
            intro hc
            injection hc with hc2
            omega
          · rw [if_neg e1]
            by_cases e2 : (lv (2 * p + 1)).isSome
            · rw [if_pos e2]
              intro hc
              injection hc with hc2
              exact hp (by omega)
            · rw [if_neg e2]
              exact fun hc => Option.noConfusion hc
        rw [if_neg hw]
        show Function.update acc (i / 2) (some (E.hash (dflt ++ node))) p = acc p
        rw [Function.update_apply, if_neg hp]

theorem buildStep_fold (E : HashEngine) (dflt : Bytes) (lv : Nat → Option Bytes) :
    ∀ (o : List Nat) (acc : Nat → Option Bytes) (p : Nat),
      (∀ i ∈ o, (lv i).isSome) →
      List.foldl (buildStepF E dflt lv) acc o p
        = if pairWriterIn lv p o then parentLevel E dflt lv p else acc p := by
  intro o
  induction o with
  | nil =>
    intro acc p _
    cases hw : pairWriter lv p <;> simp [pairWriterIn, hw]
  | cons i o ih =>
    intro acc p hmem
    have hi : (lv i).isSome := hmem i (List.mem_cons_self i o)
    show List.foldl _ (buildStepF E dflt lv acc i) o p = _
    rw [ih (buildStepF E dflt lv acc i) p (fun j hj => hmem j (List.mem_cons_of_mem i hj)),
      buildStepF_at E dflt lv acc i p hi]
    cases hw : pairWriter lv p with
    | none => simp [pairWriterIn, hw]
    | some w =>
      by_cases hc : o.contains w = true
      · have hm : w ∈ o := List.elem_iff.mp hc
        simp [pairWriterIn, hw, List.contains_cons, hc, hm]
      · by_cases hwi : w = i
        · subst hwi
          simp [pairWriterIn, hw, List.contains_cons, hc]
        · have hne : (w == i) = false := beq_eq_false_iff_ne.mpr hwi
          simp [pairWriterIn, hw, List.contains_cons, hc, hne, hwi]

theorem buildStep_eq_parentLevel (E : HashEngine) (dflt : Bytes)
    (lv : Nat → Option Bytes) (order : List Nat)
    (hmem : ∀ i, (lv i).isSome ↔ i ∈ order) :
    buildStep E dflt lv order = parentLevel E dflt lv := by
  funext p
  unfold buildStep
  rw [buildStep_fold E dflt lv order _ p (fun i hi => (hmem i).mpr hi)]
  cases hw : pairWriter lv p with
  | some w =>
    have hwk : (lv w).isSome := by
      unfold pairWriter at hw
      by_cases e1 : (lv (2 * p)).isSome
      · rw [if_pos e1] at hw
        injection hw with hw2
        exact hw2 ▸ e1
      · rw [if_neg e1] at hw
        by_cases e2 : (lv (2 * p + 1)).isSome
        · rw [if_pos e2] at hw
          injection hw with hw2
          exact hw2 ▸ e2
        · rw [if_neg e2] at hw
          exact Option.noConfusion hw
    have hin : order.contains w = true := List.elem_eq_true_of_mem ((hmem w).mp hwk)
    have hcond : pairWriterIn lv p order = true := by
      simp only [pairWriterIn, hw]
      exact hin
    rw [hcond, if_pos rfl]
  | none =>
    have e1 : ¬ (lv (2 * p)).isSome := by
      intro e
      unfold pairWriter at hw
      rw [if_pos e] at hw
      exact Option.noConfusion hw
    have e2 : ¬ (lv (2 * p + 1)).isSome := by
      intro e
      unfold pairWriter at hw
      rw [if_neg e1, if_pos e] at hw
      exact Option.noConfusion hw
    have hfalse : pairWriterIn lv p order = false := by
      simp [pairWriterIn, hw]
    rw [hfalse, if_neg (by simp)]
    unfold parentLevel
    rw [if_neg (by
      simp only [Bool.or_eq_true]
      rintro (h | h)
      · exact e1 h
      · exact e2 h)]

theorem funUp_succ_outer (E : HashEngine) : ∀ (n j : Nat) (lv : Nat → Option Bytes),
    funUp E j lv (n + 1) = parentLevel E (defaultNodeAux E (j + n)) (funUp E j lv n) := by
  intro n
  induction n with
  | zero => intro j lv; rfl
  | succ n ih =>
    intro j lv
    show funUp E (j + 1) (parentLevel E (defaultNodeAux E j) lv) (n + 1) = _
    rw [ih (j + 1) _]
    have hj : j + 1 + n = j + (n + 1) := by omega
    rw [hj]
    rfl

theorem levelAux_eq_funUp (E : HashEngine) (lf : Nat → Option Bytes) :
    ∀ k, funUp E 0 lf k = levelAux E lf k := by
  intro k
  induction k with
  | zero => rfl
  | succ k ih =>
    rw [funUp_succ_outer E k 0 lf, Nat.zero_add, ih]
    rfl

theorem opUp_valid_eq (E : HashEngine) : ∀ (os : List (List Nat)) (j : Nat)
    (lv : Nat → Option Bytes), ValidUp E j lv os →
    opUp E j lv os = funUp E j lv os.length := by
  intro os
  induction os with
  | nil => intro j lv _; rfl
  | cons o os ih =>
    intro j lv hv
    obtain ⟨hmem, hrest⟩ := hv
    show opUp E (j + 1) (buildStep E (defaultNodeAux E j) lv o) os = _
    have heq : buildStep E (defaultNodeAux E j) lv o = parentLevel E (defaultNodeAux E j) lv :=
      buildStep_eq_parentLevel E _ lv o hmem
    rw [heq] at hrest
    rw [heq, ih (j + 1) _ hrest]
    rfl

theorem lookup_eq_none_of_not_mem : ∀ (l : List (Nat × Bytes)) (i : Nat),
    i ∉ l.map Prod.fst → List.lookup i l = none := by
  intro l
  induction l with
  | nil => intro i _; rfl
  | cons p l ih =>
    intro i hmem
    obtain ⟨k, b⟩ := p
    simp only [List.map_cons, List.mem_cons, not_or] at hmem
    have hne : (i == k) = false := beq_eq_false_iff_ne.mpr hmem.1
    simp [List.lookup_cons, hne, ih i hmem.2]

theorem storeLeaves_from_lookup (E : HashEngine) :
    ∀ (l : List (Nat × Bytes)) (acc : Nat → Option Bytes) (i : Nat),
      (l.map Prod.fst).Nodup →
      List.foldl (fun (acc : Nat → Option Bytes) p =>
          Function.update acc p.1 (some (E.hash p.2))) acc l i
        = match List.lookup i l with
          | some b => some (E.hash b)
          | none => acc i := by
  intro l
  induction l with
  | nil => intro acc i _; rfl
  | cons p l ih =>
    intro acc i hnd
    obtain ⟨k, b⟩ := p
    simp only [List.map_cons, List.nodup_cons] at hnd
    obtain ⟨hk, hnd2⟩ := hnd
    show List.foldl _ (Function.update acc k (some (E.hash b))) l i = _
    rw [ih _ i hnd2]
    by_cases hik : i = k
    · subst hik
      have hnone : List.lookup i l = none := lookup_eq_none_of_not_mem l i hk
      rw [hnone]
      show Function.update acc i (some (E.hash b)) i = _
      rw [Function.update_apply, if_pos rfl]
      simp [List.lookup_cons]
    · have hne : (i == k) = false := beq_eq_false_iff_ne.mpr hik
      rw [show List.lookup i ((k, b) :: l) = List.lookup i l from by
        simp [List.lookup_cons, hne]]
      cases hl : List.lookup i l with
      | some b2 => rfl
      | none =>
        show Function.update acc k (some (E.hash b)) i = acc i
        rw [Function.update_apply, if_neg hik]

theorem lookup_perm : ∀ {l1 l2 : List (Nat × Bytes)}, l1.Perm l2 →
    (l1.map Prod.fst).Nodup → ∀ i, List.lookup i l1 = List.lookup i l2 := by
  intro l1 l2 hperm
  induction hperm with
  | nil => intro _ i; rfl
  | cons p hperm ih =>
    intro hnd i
    obtain ⟨k, b⟩ := p
    simp only [List.map_cons, List.nodup_cons] at hnd
    cases hik : (i == k) with
    | true => simp [List.lookup_cons, hik]
    | false => simp [List.lookup_cons, hik, ih hnd.2 i]
  | swap x y l =>
    intro hnd i
    obtain ⟨k1, b1⟩ := x
    obtain ⟨k2, b2⟩ := y
    simp only [List.map_cons, List.nodup_cons, List.mem_cons, not_or] at hnd
    cases h1 : (i == k1) with
    | true =>
      cases h2 : (i == k2) with
      | true =>
        exfalso
        exact hnd.1.1 (by rw [← eq_of_beq h2, ← eq_of_beq h1])
      | false => simp [List.lookup_cons, h1, h2]
    | false =>
      cases h2 : (i == k2) with
      | true => simp [List.lookup_cons, h1, h2]
      | false => simp [List.lookup_cons, h1, h2]
  | trans h12 h23 ih12 ih23 =>
    intro hnd i
    rw [ih12 hnd i, ih23 ((h12.map Prod.fst).nodup_iff.mp hnd) i]

theorem storeLeaves_perm (E : HashEngine) {l1 l2 : List (Nat × Bytes)}
    (hperm : l1.Perm l2) (hnd : (l1.map Prod.fst).Nodup) :
    storeLeaves E l1 = storeLeaves E l2 := by
  funext i
  unfold storeLeaves
  rw [storeLeaves_from_lookup E l1 _ i hnd,
    storeLeaves_from_lookup E l2 _ i ((hperm.map Prod.fst).nodup_iff.mp hnd),
    lookup_perm hperm hnd i]

/-- C8: any two operational builds of the same engine, depth and leaf
multiset — over any enumeration order of the leaf map (no duplicate keys,
as in a Go map) and any per-level iteration orders that enumerate the keys
of the level maps — produce the same root, and that root is the root of the
modelled tree: a parent is computed exactly once per sibling pair, so the
result does not depend on iteration order. -/
theorem C8_build_root_deterministic (E : HashEngine) (depth : Nat)
    (l1 l2 : List (Nat × Bytes)) (os1 os2 : List (List Nat))
    (hperm : l1.Perm l2) (hnd : (l1.map Prod.fst).Nodup)
    (hlen1 : os1.length = depth) (hlen2 : os2.length = depth)
    (hv1 : ValidUp E 0 (storeLeaves E l1) os1)
    (hv2 : ValidUp E 0 (storeLeaves E l2) os2) :
    opRoot E depth l1 os1 = opRoot E depth l2 os2
    ∧ opRoot E depth l1 os1 = Root (mkTree E depth l1) := by
  have hkey : ∀ (l : List (Nat × Bytes)) (os : List (List Nat)),
      os.length = depth → ValidUp E 0 (storeLeaves E l) os →
      opRoot E depth l os = Root (mkTree E depth l) := by
    intro l os hlen hv
    unfold opRoot
    rw [opUp_valid_eq E os 0 _ hv, hlen, levelAux_eq_funUp]
    rw [Root_eq_nodeVal]
    unfold nodeVal
    rw [mkTree_levels, mkTree_defaultNodes_getD E depth l 0 (Nat.zero_le depth),
      Nat.sub_zero]
    rfl
  have h1 := hkey l1 os1 hlen1 hv1
  have h2 := hkey l2 os2 hlen2 hv2
  refine ⟨?_, h1⟩
  rw [h1, h2]
  have hsl : storeLeaves E l1 = storeLeaves E l2 := storeLeaves_perm E hperm hnd
  unfold Root
  rw [mkTree_levels, mkTree_levels, mkTree_defaultNodes, mkTree_defaultNodes, hsl]

/-- C8 witness: the two enumeration orders of a two-leaf depth-1 map give
the same root. -/
theorem C8_build_root_deterministic_witness :
    opRoot testE32 1 [(0, [1]), (1, [2])] [[0, 1]]
      = opRoot testE32 1 [(1, [2]), (0, [1])] [[1, 0]] :=
  (C8_build_root_deterministic testE32 1 [(0, [1]), (1, [2])] [(1, [2]), (0, [1])]
    [[0, 1]] [[1, 0]] (by decide) (by decide) rfl rfl
    ⟨fun i => by rw [storeLeaves_isSome]; exact Iff.rfl, trivial⟩
    ⟨fun i => by rw [storeLeaves_isSome]; exact Iff.rfl, trivial⟩).1

end Merkle
